import Mathlib

/-!
Verification of the wordle-aid core (`src/main.rs`): the guess history,
the constraint aggregator `AggregateWordResult::from`, and the matcher
`word_matches` / `letter_matches`, together with the surrounding helper
functions `set_not_in_str` and `used_at_least_once`.

Modelling conventions:
* A Rust `char` is a Lean `Char`; a candidate word (`&str` iterated by
  `.chars()`) is a `List Char`.
* A Rust `HashSet<char>` is a `List Char` with insert-if-absent; every
  use in the source is membership-only, so iteration order is irrelevant.
* A Rust indexing expression `v[i]` that can panic is modelled through
  `Option`: `none` is the panic, `some x` the in-bounds read.
-/

set_option autoImplicit false

namespace WordleAid

/-- Feedback for one guessed letter (`GuessedLetterResult` in the source):
black / yellow / green. -/
inductive GuessedLetterResult where
  | NotUsed
  | WrongSpot
  | CorrectSpot
deriving DecidableEq

/-- One letter of a guess together with its feedback (`GuessedLetter`). -/
structure GuessedLetter where
  letter : Char
  result : GuessedLetterResult
deriving DecidableEq

/-- A whole submitted guess (`GuessedWord`): its letters in order. -/
structure GuessedWord where
  letters : List GuessedLetter
deriving DecidableEq

/-- Per-position aggregated constraint (`AggregateLetterResult`):
letters forbidden at the position, and the optional required letter. -/
structure AggregateLetterResult where
  wrong_spot : List Char
  correct_spot : Option Char
deriving DecidableEq

/-- Aggregated constraints over the whole history (`AggregateWordResult`). -/
structure AggregateWordResult where
  not_used : List Char
  used_somewhere : List Char
  aggregate_letter_results : List AggregateLetterResult
deriving DecidableEq

/-- `HashSet::insert`: add the element if it is not already present. -/
def insertChar (c : Char) (s : List Char) : List Char :=
  if c ∈ s then s else c :: s

/-- The mutable state of the aggregation loops in `AggregateWordResult::from`:
the per-position accumulators `correct_spot` and `wrong_spot` together with
the global accumulators `not_used` and `used_somewhere`. -/
structure AggState where
  correct_spot : Option Char
  wrong_spot : List Char
  not_used : List Char
  used_somewhere : List Char
deriving DecidableEq

/-- One iteration of the inner `for word in guessed_words` loop of
`AggregateWordResult::from`, at position `letter_index`.  Reading
`word.letters[letter_index]` panics (`none`) when the guess is shorter than
`letter_index + 1`.  Note the source's `_ => None` arm: any non-green
feedback at this position resets `correct_spot` to `None`. -/
def stepGuess (letter_index : Nat) (st : AggState) (word : GuessedWord) :
    Option AggState :=
  match word.letters[letter_index]? with
  | none => none
  | some current_letter =>
    let cs : Option Char :=
      match current_letter.result with
      | GuessedLetterResult.CorrectSpot =>
        match st.correct_spot with
        | some c => some c
        | none => some current_letter.letter
      | _ => none
    match current_letter.result with
    | GuessedLetterResult.WrongSpot =>
      some { correct_spot := cs
             wrong_spot := insertChar current_letter.letter st.wrong_spot
             not_used := st.not_used
             used_somewhere := insertChar current_letter.letter st.used_somewhere }
    | GuessedLetterResult.NotUsed =>
      some { correct_spot := cs
             wrong_spot := st.wrong_spot
             not_used := insertChar current_letter.letter st.not_used
             used_somewhere := st.used_somewhere }
    | GuessedLetterResult.CorrectSpot =>
      some { correct_spot := cs
             wrong_spot := st.wrong_spot
             not_used := st.not_used
             used_somewhere := st.used_somewhere }

/-- The inner `for word in guessed_words` loop, folded over the history in
chronological order. -/
def foldGuesses (letter_index : Nat) (st : AggState) :
    List GuessedWord → Option AggState
  | [] => some st
  | w :: ws =>
    match stepGuess letter_index st w with
    | none => none
    | some st2 => foldGuesses letter_index st2 ws

/-- The outer `while letter_index < 5` loop of `AggregateWordResult::from`:
`ps` is the list of remaining positions, `nu` / `us` the global sets so far,
`acc` the `aggregate_letter_results` pushed so far. -/
def foldPositions (guessed_words : List GuessedWord) :
    List Char → List Char → List AggregateLetterResult → List Nat →
    Option AggregateWordResult
  | nu, us, acc, [] =>
    some { not_used := nu
           used_somewhere := us
           aggregate_letter_results := acc }
  | nu, us, acc, p :: ps =>
    match foldGuesses p
        { correct_spot := none, wrong_spot := [], not_used := nu,
          used_somewhere := us } guessed_words with
    | none => none
    | some st =>
      foldPositions guessed_words st.not_used st.used_somewhere
        (acc ++ [{ wrong_spot := st.wrong_spot, correct_spot := st.correct_spot }]) ps

/-- `AggregateWordResult::from`: aggregate a whole guess history.  `none`
models the panic on a guess shorter than 5 letters. -/
def aggregateFrom (guessed_words : List GuessedWord) : Option AggregateWordResult :=
  foldPositions guessed_words [] [] [] [0, 1, 2, 3, 4]

/-- `set_not_in_str`: no element of the set occurs in the string. -/
def set_not_in_str (hash : List Char) (strng : List Char) : Bool :=
  hash.all (fun item => strng.all (fun x => x != item))

/-- `used_at_least_once`: every element of the set occurs in the string. -/
def used_at_least_once (hash : List Char) (strng : List Char) : Bool :=
  hash.all (fun item => strng.any (fun x => x == item))

/-- `AggregateWordResult::letter_matches`: the candidate letter `chr` at
position `index` passes the positional constraint.  Indexing
`aggregate_letter_results[index]` panics (`none`) when out of bounds. -/
def letter_matches (agg : AggregateWordResult) (index : Nat) (chr : Char) :
    Option Bool :=
  match agg.aggregate_letter_results[index]? with
  | none => none
  | some aggregate_letter_result =>
    some ((match aggregate_letter_result.correct_spot with
           | some i => i == chr
           | none => true)
          && aggregate_letter_result.wrong_spot.all (fun letter => chr != letter))

/-- The `for (position, letter) in strng.chars().enumerate()` loop of
`word_matches`: `position` is the enumeration counter, `sm` the running
`successful_match`.  Rust's lazy `&&` skips `letter_matches` once `sm` is
false, so no panic can occur on the skipped calls. -/
def word_matchesAux (agg : AggregateWordResult) (position : Nat) (sm : Bool) :
    List Char → Option Bool
  | [] => some sm
  | letter :: rest =>
    if sm then
      match letter_matches agg position letter with
      | none => none
      | some b => word_matchesAux agg (position + 1) b rest
    else word_matchesAux agg (position + 1) false rest

/-- `AggregateWordResult::word_matches`: the candidate word satisfies the
global and positional constraints. -/
def word_matches (agg : AggregateWordResult) (strng : List Char) : Option Bool :=
  word_matchesAux agg 0
    (set_not_in_str agg.not_used strng && used_at_least_once agg.used_somewhere strng)
    strng

/-- Guess history (`Guesses`): the ordered list of submitted guesses. -/
structure Guesses where
  vec : List GuessedWord
deriving DecidableEq

/-- `Guesses::new`. -/
def Guesses.new : Guesses := ⟨[]⟩

/-- `Guesses::len`. -/
def Guesses.len (g : Guesses) : Nat := g.vec.length

/-- `Guesses::add_guess`: push the guess when fewer than 6 are stored,
otherwise leave the history unchanged and report the error (the source's
`eprintln!` branch; the returned `Bool` is `true` exactly when the guess
was appended, `false` when the capacity-exceeded report fires). -/
def Guesses.add_guess (g : Guesses) (guessed_word : GuessedWord) : Guesses × Bool :=
  if g.len < 6 then (⟨g.vec ++ [guessed_word]⟩, true)
  else (g, false)

/-- The boolean computed by the body of `letter_matches` for one
per-position constraint record (proof-side restatement of its `some` case). -/
def letterOKb (alr : AggregateLetterResult) (chr : Char) : Bool :=
  (match alr.correct_spot with
   | some i => i == chr
   | none => true)
  && alr.wrong_spot.all (fun letter => chr != letter)

/-- Total version of `letter_matches`: `false` on an out-of-bounds index. -/
def letterOKtotal (agg : AggregateWordResult) (index : Nat) (chr : Char) : Bool :=
  match agg.aggregate_letter_results[index]? with
  | none => false
  | some alr => letterOKb alr chr

/-- All positional checks of the candidate, starting at position `pos`. -/
def allOK (agg : AggregateWordResult) (pos : Nat) : List Char → Bool
  | [] => true
  | c :: rest => letterOKtotal agg pos c && allOK agg (pos + 1) rest

/-- The matcher contract as the specification states it: no candidate
character is confirmed absent, every used-somewhere letter occurs in the
candidate, and each position satisfies its required letter and avoids its
forbidden set. -/
def matches_spec (agg : AggregateWordResult) (s : List Char) : Prop :=
  (∀ c ∈ s, c ∉ agg.not_used) ∧
  (∀ c ∈ agg.used_somewhere, c ∈ s) ∧
  (∀ (p : Nat) (c : Char) (alr : AggregateLetterResult),
    s[p]? = some c → agg.aggregate_letter_results[p]? = some alr →
    (∀ r, alr.correct_spot = some r → c = r) ∧ c ∉ alr.wrong_spot)

/-- Honest Wordle feedback for guessing character `c` at position `p` of
target `T`: green when it is the target letter there, yellow when it occurs
in the target elsewhere, black when it does not occur at all. -/
def honestFeedback (T : List Char) (p : Nat) (c : Char) : GuessedLetterResult :=
  if T[p]? = some c then GuessedLetterResult.CorrectSpot
  else if c ∈ T then GuessedLetterResult.WrongSpot
  else GuessedLetterResult.NotUsed

/-- The letter at position `p` of the guess, if any, carries honest feedback
against target `T`. -/
def honestLetterAt (T : List Char) (w : GuessedWord) (p : Nat) : Bool :=
  match w.letters[p]? with
  | none => true
  | some gl => decide (gl.result = honestFeedback T p gl.letter)

/-- A 5-letter guess whose every letter carries honest feedback against `T`. -/
def honestGuess (T : List Char) (w : GuessedWord) : Prop :=
  w.letters.length = 5 ∧ ∀ p < 5, honestLetterAt T w p = true

instance honestGuessDecidable (T : List Char) (w : GuessedWord) :
    Decidable (honestGuess T w) := by
  unfold honestGuess
  infer_instance

/-- Invariant of the aggregation state at position `p` while scanning a
history whose feedback is honest against target `T`. -/
def InvAt (T : List Char) (p : Nat) (st : AggState) : Prop :=
  (∀ c, st.correct_spot = some c → T[p]? = some c) ∧
  (∀ c ∈ st.wrong_spot, c ∈ T ∧ T[p]? ≠ some c) ∧
  (∀ c ∈ st.not_used, c ∉ T) ∧
  (∀ c ∈ st.used_somewhere, c ∈ T)

/-- What honest aggregation guarantees about one finished per-position
constraint record for target `T` at position `p`. -/
def GoodAt (T : List Char) (p : Nat) (alr : AggregateLetterResult) : Prop :=
  (∀ c, alr.correct_spot = some c → T[p]? = some c) ∧
  (∀ c ∈ alr.wrong_spot, T[p]? ≠ some c)

/-- The guess "abcde" with all-green feedback (honest against the target
"abcde"). -/
def greenABCDE : GuessedWord :=
  ⟨[⟨'a', GuessedLetterResult.CorrectSpot⟩, ⟨'b', GuessedLetterResult.CorrectSpot⟩,
    ⟨'c', GuessedLetterResult.CorrectSpot⟩, ⟨'d', GuessedLetterResult.CorrectSpot⟩,
    ⟨'e', GuessedLetterResult.CorrectSpot⟩]⟩

/-- The guess "fghij" with all-black feedback (honest against the target
"abcde"; no letter is shared with any other guess, so no multiplicity
subtlety is involved). -/
def blackFGHIJ : GuessedWord :=
  ⟨[⟨'f', GuessedLetterResult.NotUsed⟩, ⟨'g', GuessedLetterResult.NotUsed⟩,
    ⟨'h', GuessedLetterResult.NotUsed⟩, ⟨'i', GuessedLetterResult.NotUsed⟩,
    ⟨'j', GuessedLetterResult.NotUsed⟩]⟩

/-- A history of two guesses: first "abcde" all green, then "fghij" all
black.  Exercises the `_ => None` reset arm of the aggregator. -/
def resetHistory : List GuessedWord := [greenABCDE, blackFGHIJ]

/-- The candidate word vwxyz: shares no letter with the guesses above. -/
def wordVWXYZ : List Char := ['v', 'w', 'x', 'y', 'z']

/-- The guess "cargo" with feedback yellow, green, yellow, black, black
(the source's `word_is_racer` test input). -/
def cargoGuess : GuessedWord :=
  ⟨[⟨'c', GuessedLetterResult.WrongSpot⟩, ⟨'a', GuessedLetterResult.CorrectSpot⟩,
    ⟨'r', GuessedLetterResult.WrongSpot⟩, ⟨'g', GuessedLetterResult.NotUsed⟩,
    ⟨'o', GuessedLetterResult.NotUsed⟩]⟩

/-- The candidate word racer. -/
def wordRacer : List Char := ['r', 'a', 'c', 'e', 'r']

/-- The candidate word zebra. -/
def wordZebra : List Char := ['z', 'e', 'b', 'r', 'a']

/-- The aggregate constraints of the empty history: no global letters, and
five unconstrained positions. -/
def emptyAgg : AggregateWordResult :=
  ⟨[], [], List.replicate 5 ⟨[], none⟩⟩

theorem mem_insertChar {c x : Char} {s : List Char} :
    c ∈ insertChar x s ↔ c = x ∨ c ∈ s := by
  by_cases hx : x ∈ s
  · simp only [insertChar, if_pos hx]
    constructor
    · exact Or.inr
    · rintro (rfl | h)
      · exact hx
      · exact h
  · simp [insertChar, if_neg hx]

theorem letter_matches_eq (agg : AggregateWordResult) (index : Nat) (chr : Char)
    (h : index < agg.aggregate_letter_results.length) :
    letter_matches agg index chr = some (letterOKtotal agg index chr) := by
  have h2 : agg.aggregate_letter_results[index]? =
      some (agg.aggregate_letter_results[index]) :=
    List.getElem?_eq_getElem h
  simp only [letter_matches, letterOKtotal, letterOKb, h2]

theorem word_matchesAux_false (agg : AggregateWordResult) :
    ∀ (s : List Char) (position : Nat),
      word_matchesAux agg position false s = some false := by
  intro s
  induction s with
  | nil => intro position; rfl
  | cons c rest ih =>
    intro position
    simp only [word_matchesAux, Bool.false_eq_true, if_false]
    exact ih (position + 1)

theorem word_matchesAux_some (agg : AggregateWordResult) :
    ∀ (s : List Char) (position : Nat) (sm : Bool),
      position + s.length ≤ agg.aggregate_letter_results.length →
      word_matchesAux agg position sm s = some (sm && allOK agg position s) := by
  intro s
  induction s with
  | nil =>
    intro position sm _
    simp [word_matchesAux, allOK]
  | cons c rest ih =>
    intro position sm hle
    have hpos : position < agg.aggregate_letter_results.length := by
      simp only [List.length_cons] at hle
      omega
    have hrest : position + 1 + rest.length ≤ agg.aggregate_letter_results.length := by
      simp only [List.length_cons] at hle
      omega
    cases sm with
    | false =>
      simp only [word_matchesAux, Bool.false_eq_true, if_false, Bool.false_and]
      rw [word_matchesAux_false]
    | true =>
      simp only [word_matchesAux, if_true, letter_matches_eq agg position c hpos]
      rw [ih (position + 1) (letterOKtotal agg position c) hrest]
      simp [allOK]

theorem allOK_eq_true_iff (agg : AggregateWordResult) :
    ∀ (s : List Char) (pos : Nat),
      allOK agg pos s = true ↔
        ∀ (i : Nat) (c : Char), s[i]? = some c →
          letterOKtotal agg (pos + i) c = true := by
  intro s
  induction s with
  | nil =>
    intro pos
    simp [allOK]
  | cons c rest ih =>
    intro pos
    simp only [allOK, Bool.and_eq_true, ih (pos + 1)]
    constructor
    · rintro ⟨h0, hrest⟩ i ci hi
      cases i with
      | zero =>
        rw [List.getElem?_cons_zero] at hi
        injection hi with hi
        subst hi
        simpa using h0
      | succ j =>
        rw [List.getElem?_cons_succ] at hi
        have hj := hrest j ci hi
        have harith : pos + 1 + j = pos + (j + 1) := by omega
        rw [harith] at hj
        exact hj
    · intro hall
      constructor
      · have h0 := hall 0 c List.getElem?_cons_zero
        simpa using h0
      · intro j cj hj
        have hjj := hall (j + 1) cj (by rw [List.getElem?_cons_succ]; exact hj)
        have harith : pos + (j + 1) = pos + 1 + j := by omega
        rw [harith] at hjj
        exact hjj

theorem set_not_in_str_iff (hash strng : List Char) :
    set_not_in_str hash strng = true ↔ ∀ c ∈ strng, c ∉ hash := by
  simp only [set_not_in_str, List.all_eq_true, bne_iff_ne]
  constructor
  · intro h c hc hmem
    exact h c hmem c hc rfl
  · intro h item hitem x hx heq
    exact h x hx (by rw [heq]; exact hitem)

theorem used_at_least_once_iff (hash strng : List Char) :
    used_at_least_once hash strng = true ↔ ∀ c ∈ hash, c ∈ strng := by
  simp only [used_at_least_once, List.all_eq_true, List.any_eq_true, beq_iff_eq]
  constructor
  · intro h c hc
    obtain ⟨x, hx, rfl⟩ := h c hc
    exact hx
  · intro h item hitem
    exact ⟨item, h item hitem, rfl⟩

theorem word_matches_eq (agg : AggregateWordResult) (s : List Char)
    (h : s.length ≤ agg.aggregate_letter_results.length) :
    word_matches agg s =
      some ((set_not_in_str agg.not_used s &&
             used_at_least_once agg.used_somewhere s) && allOK agg 0 s) := by
  rw [word_matches]
  exact word_matchesAux_some agg s 0 _ (by omega)

theorem letterOKtotal_iff (agg : AggregateWordResult) (i : Nat) (c : Char)
    (alr : AggregateLetterResult)
    (halr : agg.aggregate_letter_results[i]? = some alr) :
    letterOKtotal agg i c = true ↔
      (∀ r, alr.correct_spot = some r → c = r) ∧ c ∉ alr.wrong_spot := by
  simp only [letterOKtotal, halr, letterOKb, Bool.and_eq_true]
  constructor
  · rintro ⟨hc, hw⟩
    constructor
    · intro r hr
      rw [hr] at hc
      exact (beq_iff_eq.mp hc).symm
    · intro hmem
      have hmm := List.all_eq_true.mp hw c hmem
      simp [bne_iff_ne] at hmm
  · rintro ⟨hc, hw⟩
    constructor
    · cases hcs : alr.correct_spot with
      | none => rfl
      | some r =>
        rw [beq_iff_eq]
        exact (hc r hcs).symm
    · rw [List.all_eq_true]
      intro l hl
      rw [bne_iff_ne]
      intro he
      exact hw (by rw [he]; exact hl)

theorem foldPositions_length (gw : List GuessedWord) :
    ∀ (ps : List Nat) (nu us : List Char) (acc : List AggregateLetterResult)
      (agg : AggregateWordResult),
      foldPositions gw nu us acc ps = some agg →
      agg.aggregate_letter_results.length = acc.length + ps.length := by
  intro ps
  induction ps with
  | nil =>
    intro nu us acc agg h
    simp only [foldPositions, Option.some_inj] at h
    subst h
    simp
  | cons p ps ih =>
    intro nu us acc agg h
    simp only [foldPositions] at h
    cases hfg : foldGuesses p ⟨none, [], nu, us⟩ gw with
    | none =>
      rw [hfg] at h
      cases h
    | some st =>
      rw [hfg] at h
      have hlen := ih st.not_used st.used_somewhere
        (acc ++ [⟨st.wrong_spot, st.correct_spot⟩]) agg h
      rw [hlen, List.length_append]
      simp only [List.length_cons, List.length_nil, List.length_singleton]
      omega

theorem stepGuess_honest (T : List Char) (p : Nat) (hp : p < 5)
    (st : AggState) (w : GuessedWord) (hw : honestGuess T w)
    (hinv : InvAt T p st) :
    ∃ st2, stepGuess p st w = some st2 ∧ InvAt T p st2 := by
  obtain ⟨hlen, hhon⟩ := hw
  obtain ⟨hcs, hws, hnu, hus⟩ := hinv
  have hp2 : p < w.letters.length := by omega
  have hgl : w.letters[p]? = some w.letters[p] := List.getElem?_eq_getElem hp2
  have hres := hhon p hp
  simp only [honestLetterAt, hgl, decide_eq_true_eq] at hres
  cases hglv : w.letters[p] with
  | mk letter result =>
    rw [hglv] at hgl hres
    simp only at hres
    rw [honestFeedback] at hres
    split_ifs at hres with h1 h2
    · -- green: the guessed letter is the target letter at p
      subst hres
      cases hsc : st.correct_spot with
      | none =>
        refine ⟨⟨some letter, st.wrong_spot, st.not_used, st.used_somewhere⟩, ?_, ?_⟩
        · simp only [stepGuess, hgl, hsc]
        · refine ⟨?_, hws, hnu, hus⟩
          intro c hc
          simp only at hc
          injection hc with hc
          subst hc
          exact h1
      | some d =>
        refine ⟨⟨some d, st.wrong_spot, st.not_used, st.used_somewhere⟩, ?_, ?_⟩
        · simp only [stepGuess, hgl, hsc]
        · refine ⟨?_, hws, hnu, hus⟩
          intro c hc
          simp only at hc
          injection hc with hc
          subst hc
          exact hcs d hsc
    · -- yellow: the guessed letter occurs in the target, elsewhere
      subst hres
      refine ⟨⟨none, insertChar letter st.wrong_spot, st.not_used,
               insertChar letter st.used_somewhere⟩, ?_, ?_⟩
      · simp only [stepGuess, hgl]
      · refine ⟨?_, ?_, hnu, ?_⟩
        · intro c hc
          exact Option.noConfusion hc
        · intro c hc
          simp only [mem_insertChar] at hc
          rcases hc with rfl | hc
          · exact ⟨h2, h1⟩
          · exact hws c hc
        · intro c hc
          simp only [mem_insertChar] at hc
          rcases hc with rfl | hc
          · exact h2
          · exact hus c hc
    · -- black: the guessed letter does not occur in the target
      subst hres
      refine ⟨⟨none, st.wrong_spot, insertChar letter st.not_used,
               st.used_somewhere⟩, ?_, ?_⟩
      · simp only [stepGuess, hgl]
      · refine ⟨?_, hws, ?_, hus⟩
        · intro c hc
          exact Option.noConfusion hc
        · intro c hc
          simp only [mem_insertChar] at hc
          rcases hc with rfl | hc
          · exact h2
          · exact hnu c hc

theorem foldGuesses_honest (T : List Char) (p : Nat) (hp : p < 5) :
    ∀ (ws : List GuessedWord) (st : AggState),
      (∀ w ∈ ws, honestGuess T w) → InvAt T p st →
      ∃ st2, foldGuesses p st ws = some st2 ∧ InvAt T p st2 := by
  intro ws
  induction ws with
  | nil =>
    intro st _ hinv
    exact ⟨st, rfl, hinv⟩
  | cons w ws ih =>
    intro st hws hinv
    obtain ⟨st1, hst1, hinv1⟩ := stepGuess_honest T p hp st w (hws w (by simp)) hinv
    obtain ⟨st2, hst2, hinv2⟩ :=
      ih st1 (fun w2 hw2 => hws w2 (by simp [hw2])) hinv1
    refine ⟨st2, ?_, hinv2⟩
    simp only [foldGuesses, hst1]
    exact hst2

theorem foldPositions_honest (T : List Char) (gw : List GuessedWord)
    (hgw : ∀ w ∈ gw, honestGuess T w) :
    ∀ (ps : List Nat) (nu us : List Char) (acc : List AggregateLetterResult),
      (∀ p ∈ ps, p < 5) → (∀ c ∈ nu, c ∉ T) → (∀ c ∈ us, c ∈ T) →
      ∃ agg rest,
        foldPositions gw nu us acc ps = some agg ∧
        (∀ c ∈ agg.not_used, c ∉ T) ∧ (∀ c ∈ agg.used_somewhere, c ∈ T) ∧
        agg.aggregate_letter_results = acc ++ rest ∧
        (∀ (j p : Nat) (alr : AggregateLetterResult),
          ps[j]? = some p → rest[j]? = some alr → GoodAt T p alr) := by
  intro ps
  induction ps with
  | nil =>
    intro nu us acc _ hnu hus
    refine ⟨⟨nu, us, acc⟩, [], rfl, hnu, hus, by simp, ?_⟩
    intro j p alr _ halr
    simp at halr
  | cons p ps ih =>
    intro nu us acc hps hnu hus
    have hp : p < 5 := hps p (by simp)
    obtain ⟨st, hst, hinv⟩ := foldGuesses_honest T p hp gw
      ⟨none, [], nu, us⟩ hgw
      ⟨fun c hc => Option.noConfusion hc, fun c hc => absurd hc (List.not_mem_nil c),
       hnu, hus⟩
    obtain ⟨agg, rest, hfold, hnu2, hus2, hstruct, hgood⟩ :=
      ih st.not_used st.used_somewhere
        (acc ++ [⟨st.wrong_spot, st.correct_spot⟩])
        (fun q hq => hps q (by simp [hq])) hinv.2.2.1 hinv.2.2.2
    refine ⟨agg, ⟨st.wrong_spot, st.correct_spot⟩ :: rest, ?_, hnu2, hus2, ?_, ?_⟩
    · simp only [foldPositions, hst]
      exact hfold
    · rw [hstruct, List.append_assoc]
      rfl
    · intro j q alr hq halr
      cases j with
      | zero =>
        rw [List.getElem?_cons_zero] at hq halr
        injection hq with hq
        injection halr with halr
        subst hq
        subst halr
        exact ⟨hinv.1, fun c hc => (hinv.2.1 c hc).2⟩
      | succ k =>
        rw [List.getElem?_cons_succ] at hq halr
        exact hgood k q alr hq halr

theorem stepGuess_some (p : Nat) (st : AggState) (w : GuessedWord)
    (hw : 5 ≤ w.letters.length) (hp : p < 5) :
    ∃ st2, stepGuess p st w = some st2 := by
  have hp2 : p < w.letters.length := by omega
  have hgl : w.letters[p]? = some w.letters[p] := List.getElem?_eq_getElem hp2
  simp only [stepGuess, hgl]
  cases hres : w.letters[p].result <;> exact ⟨_, rfl⟩

theorem foldGuesses_some (p : Nat) (hp : p < 5) :
    ∀ (ws : List GuessedWord) (st : AggState),
      (∀ w ∈ ws, 5 ≤ w.letters.length) →
      ∃ st2, foldGuesses p st ws = some st2 := by
  intro ws
  induction ws with
  | nil =>
    intro st _
    exact ⟨st, rfl⟩
  | cons w ws ih =>
    intro st hws
    obtain ⟨st1, hst1⟩ := stepGuess_some p st w (hws w (by simp)) hp
    obtain ⟨st2, hst2⟩ := ih st1 (fun w2 hw2 => hws w2 (by simp [hw2]))
    refine ⟨st2, ?_⟩
    simp only [foldGuesses, hst1]
    exact hst2

theorem foldPositions_some (gw : List GuessedWord)
    (hgw : ∀ w ∈ gw, 5 ≤ w.letters.length) :
    ∀ (ps : List Nat) (nu us : List Char) (acc : List AggregateLetterResult),
      (∀ q ∈ ps, q < 5) →
      ∃ agg, foldPositions gw nu us acc ps = some agg := by
  intro ps
  induction ps with
  | nil =>
    intro nu us acc _
    exact ⟨_, rfl⟩
  | cons p ps ih =>
    intro nu us acc hps
    obtain ⟨st, hst⟩ := foldGuesses_some p (hps p (by simp)) gw
      ⟨none, [], nu, us⟩ hgw
    obtain ⟨agg, hagg⟩ := ih st.not_used st.used_somewhere
      (acc ++ [⟨st.wrong_spot, st.correct_spot⟩])
      (fun q hq => hps q (by simp [hq]))
    refine ⟨agg, ?_⟩
    simp only [foldPositions, hst]
    exact hagg

theorem positions_getElem (i : Nat) (hi : i < 5) :
    ([0, 1, 2, 3, 4] : List Nat)[i]? = some i := by
  interval_cases i <;> rfl

/-- Claim C1, refuted by the code: in `resetHistory` the first guess has
green (Correct) feedback at every position, yet the aggregated required
letter is `none` at every position, because the second guess's non-green
feedback resets the accumulator (the `_ => None` arm in
`AggregateWordResult::from`).  The claim says the required letter is set
whenever some guess has Correct feedback at the position. -/
theorem correct_spot_reset_code_bug :
    (resetHistory.head?.map fun w => w.letters.map fun gl => gl.result) =
      some (List.replicate 5 GuessedLetterResult.CorrectSpot) ∧
    (aggregateFrom resetHistory).map
        (fun agg => agg.aggregate_letter_results.map fun alr => alr.correct_spot) =
      some (List.replicate 5 none) := by
  decide

/-- Claim C2, refuted by the code: appending the honest all-black guess
"fghij" to the one-guess history "abcde" all-green makes the candidate
"vwxyz" match even though it did not match before, so the filtered match
set grows.  No letter occurs twice anywhere, so the multiplicity
limitation is not involved; the cause is the `_ => None` reset of the
required letter. -/
theorem monotonic_narrowing_code_bug :
    (aggregateFrom [greenABCDE, blackFGHIJ]).map
        (fun agg => word_matches agg wordVWXYZ) = some (some true) ∧
    (aggregateFrom [greenABCDE]).map
        (fun agg => word_matches agg wordVWXYZ) = some (some false) := by
  decide

/-- Claim C3: for every 5-letter target `T` and every history whose guesses
all carry honest feedback against `T`, aggregation succeeds and the matcher
accepts `T` itself. -/
theorem aggregate_matches_target (T : List Char) (hT : T.length = 5)
    (h : List GuessedWord) (hh : ∀ w ∈ h, honestGuess T w) :
    ∃ agg, aggregateFrom h = some agg ∧ word_matches agg T = some true := by
  obtain ⟨agg, rest, hfold, hnu, hus, hstruct, hgood⟩ :=
    foldPositions_honest T h hh [0, 1, 2, 3, 4] [] [] []
      (by decide) (fun c hc => absurd hc (List.not_mem_nil c))
      (fun c hc => absurd hc (List.not_mem_nil c))
  refine ⟨agg, hfold, ?_⟩
  have hlen : agg.aggregate_letter_results.length = 5 := by
    have hl := foldPositions_length h [0, 1, 2, 3, 4] [] [] [] agg hfold
    simpa using hl
  rw [word_matches_eq agg T (by omega)]
  have h1 : set_not_in_str agg.not_used T = true :=
    (set_not_in_str_iff _ _).mpr (fun c hc hmem => hnu c hmem hc)
  have h2 : used_at_least_once agg.used_somewhere T = true :=
    (used_at_least_once_iff _ _).mpr hus
  have h3 : allOK agg 0 T = true := by
    rw [allOK_eq_true_iff]
    intro i c hi
    have hiT : i < T.length := by
      obtain ⟨hlt, -⟩ := List.getElem?_eq_some.mp hi
      exact hlt
    have hi5 : i < 5 := by omega
    have hibd : i < agg.aggregate_letter_results.length := by omega
    have halr : agg.aggregate_letter_results[i]? =
        some (agg.aggregate_letter_results[i]) :=
      List.getElem?_eq_getElem hibd
    have hrw : agg.aggregate_letter_results[i]? = rest[i]? := by
      rw [hstruct]
      simp
    obtain ⟨hgd1, hgd2⟩ := hgood i i (agg.aggregate_letter_results[i])
      (positions_getElem i hi5) (by rw [← hrw]; exact halr)
    simp only [Nat.zero_add, letterOKtotal, halr, letterOKb, Bool.and_eq_true]
    constructor
    · cases hcsp : (agg.aggregate_letter_results[i]).correct_spot with
      | none => rfl
      | some r =>
        have hr := hgd1 r hcsp
        rw [hi] at hr
        injection hr with hr
        rw [beq_iff_eq]
        exact hr.symm
    · rw [List.all_eq_true]
      intro l hl
      rw [bne_iff_ne]
      intro hcl
      exact hgd2 l hl (by rw [← hcl]; exact hi)
  rw [h1, h2, h3]
  rfl

/-- Witness for claim C3: the guess "cargo" with feedback yellow, green,
yellow, black, black is honest against the target "racer", and "racer"
survives its own filter. -/
theorem aggregate_matches_target_witness :
    ∃ agg, aggregateFrom [cargoGuess] = some agg ∧
      word_matches agg wordRacer = some true :=
  aggregate_matches_target wordRacer (by decide) [cargoGuess] (by decide)

/-- Claim C4: `add_guess` appends exactly when fewer than 6 guesses are
stored; otherwise it reports the capacity error (second component `false`)
and leaves the stored guesses unchanged — in particular at length 6. -/
theorem add_guess_capacity (g : Guesses) (w : GuessedWord) :
    (g.vec.length < 6 → g.add_guess w = (⟨g.vec ++ [w]⟩, true)) ∧
    (¬ g.vec.length < 6 → g.add_guess w = (g, false)) ∧
    (g.vec.length = 6 → (g.add_guess w).1 = g ∧ (g.add_guess w).2 = false) := by
  refine ⟨?_, ?_, ?_⟩
  · intro hlt
    simp [Guesses.add_guess, Guesses.len, hlt]
  · intro hge
    simp [Guesses.add_guess, Guesses.len, hge]
  · intro h6
    have hge : ¬ g.vec.length < 6 := by omega
    simp [Guesses.add_guess, Guesses.len, hge]

/-- Witness for claim C4: a 7th add on a 6-guess history is rejected and
leaves the history unchanged, while an add on a short history appends. -/
theorem add_guess_capacity_witness :
    Guesses.add_guess ⟨List.replicate 6 ⟨[]⟩⟩ ⟨[]⟩ =
      (⟨List.replicate 6 ⟨[]⟩⟩, false) ∧
    Guesses.add_guess ⟨[]⟩ ⟨[]⟩ = (⟨[⟨[]⟩]⟩, true) := by
  constructor
  · exact (add_guess_capacity ⟨List.replicate 6 ⟨[]⟩⟩ ⟨[]⟩).2.1 (by decide)
  · exact (add_guess_capacity ⟨[]⟩ ⟨[]⟩).1 (by decide)

/-- Claim C5: for constraints with 5 per-position entries and a 5-letter
candidate, `word_matches` returns true exactly under the specification's
three conditions (no confirmed-absent character, every used-somewhere
letter present, and each position's required letter and forbidden set
respected). -/
theorem word_matches_iff_spec (agg : AggregateWordResult) (s : List Char)
    (h1 : agg.aggregate_letter_results.length = 5) (h2 : s.length = 5) :
    word_matches agg s = some true ↔ matches_spec agg s := by
  rw [word_matches_eq agg s (by omega), Option.some_inj, Bool.and_eq_true,
    Bool.and_eq_true, set_not_in_str_iff, used_at_least_once_iff,
    allOK_eq_true_iff]
  simp only [Nat.zero_add]
  constructor
  · rintro ⟨⟨ha, hb⟩, hc⟩
    refine ⟨ha, hb, ?_⟩
    intro p c alr hp halr
    exact (letterOKtotal_iff agg p c alr halr).mp (hc p c hp)
  · rintro ⟨ha, hb, hc⟩
    refine ⟨⟨ha, hb⟩, ?_⟩
    intro i c hi
    have hiT : i < s.length := by
      obtain ⟨hlt, -⟩ := List.getElem?_eq_some.mp hi
      exact hlt
    have hibd : i < agg.aggregate_letter_results.length := by omega
    have halr : agg.aggregate_letter_results[i]? =
        some (agg.aggregate_letter_results[i]) :=
      List.getElem?_eq_getElem hibd
    exact (letterOKtotal_iff agg i c _ halr).mpr (hc i c _ hi halr)

/-- Witness for claim C5: the unconstrained aggregate accepts "abcde", so
the specification predicate holds of it. -/
theorem word_matches_iff_spec_witness :
    matches_spec emptyAgg ['a', 'b', 'c', 'd', 'e'] :=
  (word_matches_iff_spec emptyAgg ['a', 'b', 'c', 'd', 'e']
    (by decide) (by decide)).mp (by decide)

/-- Claim C6: under the single guess "cargo" with feedback yellow, green,
yellow, black, black, the matcher accepts "racer" and rejects "zebra". -/
theorem cargo_scenario :
    (aggregateFrom [cargoGuess]).map
        (fun agg => (word_matches agg wordRacer, word_matches agg wordZebra)) =
      some (some true, some false) := by
  decide

/-- Claim C7: the aggregate of the empty history accepts every 5-letter
word, so filtering any list of 5-letter words returns the whole list. -/
theorem empty_history_matches_all (agg : AggregateWordResult)
    (hagg : aggregateFrom [] = some agg) :
    (∀ s : List Char, s.length = 5 → word_matches agg s = some true) ∧
    (∀ ws : List (List Char), (∀ s ∈ ws, s.length = 5) →
      ws.filter (fun s => word_matches agg s == some true) = ws) := by
  have hv : aggregateFrom [] = some emptyAgg := rfl
  rw [hv, Option.some_inj] at hagg
  subst hagg
  have hkey : ∀ s : List Char, s.length = 5 →
      word_matches emptyAgg s = some true := by
    intro s hs
    have hl5 : emptyAgg.aggregate_letter_results.length = 5 := rfl
    rw [word_matches_eq emptyAgg s (by omega)]
    have hget : ∀ j < 5, emptyAgg.aggregate_letter_results[j]? =
        some ⟨[], none⟩ := by decide
    have hok : allOK emptyAgg 0 s = true := by
      rw [allOK_eq_true_iff]
      intro i c hi
      have hiT : i < s.length := by
        obtain ⟨hlt, -⟩ := List.getElem?_eq_some.mp hi
        exact hlt
      have hi5 : i < 5 := by omega
      simp only [Nat.zero_add, letterOKtotal, hget i hi5]
      rfl
    rw [hok]
    rfl
  refine ⟨hkey, ?_⟩
  intro ws hws
  rw [List.filter_eq_self]
  intro s hs
  rw [hkey s (hws s hs)]
  rfl

/-- Witness for claim C7: the empty-history aggregate accepts "abcde". -/
theorem empty_history_matches_all_witness :
    word_matches emptyAgg ['a', 'b', 'c', 'd', 'e'] = some true :=
  (empty_history_matches_all emptyAgg rfl).1 ['a', 'b', 'c', 'd', 'e'] (by decide)

/-- Claim C8: when some letter is both confirmed absent and used somewhere,
`word_matches` returns false on every candidate, so every filter result is
empty. -/
theorem conflicting_sets_match_nothing (agg : AggregateWordResult) (l : Char)
    (h1 : l ∈ agg.not_used) (h2 : l ∈ agg.used_somewhere) :
    (∀ s : List Char, word_matches agg s = some false) ∧
    (∀ ws : List (List Char),
      ws.filter (fun s => word_matches agg s == some true) = []) := by
  have hkey : ∀ s : List Char, word_matches agg s = some false := by
    intro s
    rw [word_matches]
    have hsm : (set_not_in_str agg.not_used s &&
        used_at_least_once agg.used_somewhere s) = false := by
      by_cases hls : l ∈ s
      · have hf : set_not_in_str agg.not_used s = false := by
          rw [Bool.eq_false_iff]
          intro hall
          exact (set_not_in_str_iff _ _).mp hall l hls h1
        rw [hf, Bool.false_and]
      · have hf : used_at_least_once agg.used_somewhere s = false := by
          rw [Bool.eq_false_iff]
          intro hall
          exact hls ((used_at_least_once_iff _ _).mp hall l h2)
        rw [hf, Bool.and_false]
    rw [hsm]
    exact word_matchesAux_false agg s 0
  refine ⟨hkey, ?_⟩
  intro ws
  rw [List.filter_eq_nil_iff]
  intro s _
  rw [hkey s]
  decide

/-- Witness for claim C8: with the letter a both confirmed absent and
required somewhere, even a word avoiding it is rejected. -/
theorem conflicting_sets_match_nothing_witness :
    word_matches ⟨['a'], ['a'], []⟩ ['b', 'b', 'b', 'b', 'b'] = some false :=
  (conflicting_sets_match_nothing ⟨['a'], ['a'], []⟩ 'a' (by decide) (by decide)).1
    ['b', 'b', 'b', 'b', 'b']

/-- Claim C9: every successful aggregation yields exactly 5 per-position
entries, and on any candidate of length at most 5 the matcher performs only
in-bounds indexing (it returns a value rather than panicking). -/
theorem aggregate_length_and_inbounds (h : List GuessedWord)
    (agg : AggregateWordResult) (hagg : aggregateFrom h = some agg) :
    agg.aggregate_letter_results.length = 5 ∧
    ∀ s : List Char, s.length ≤ 5 → (word_matches agg s).isSome = true := by
  have hlen : agg.aggregate_letter_results.length = 5 := by
    have hl := foldPositions_length h [0, 1, 2, 3, 4] [] [] [] agg hagg
    simpa using hl
  refine ⟨hlen, ?_⟩
  intro s hs
  rw [word_matches_eq agg s (by omega)]
  rfl

/-- Witness for claim C9: the empty-history aggregate evaluates the matcher
without panic on a 3-letter word. -/
theorem aggregate_length_and_inbounds_witness :
    (word_matches emptyAgg ['x', 'y', 'z']).isSome = true :=
  (aggregate_length_and_inbounds [] emptyAgg rfl).2 ['x', 'y', 'z'] (by decide)

/-- Claim C10: when every guess in the history has at least 5 letters,
aggregation indexes only in bounds and cannot panic. -/
theorem aggregation_no_panic (h : List GuessedWord)
    (hw : ∀ w ∈ h, 5 ≤ w.letters.length) :
    (aggregateFrom h).isSome = true := by
  obtain ⟨agg, hagg⟩ := foldPositions_some h hw [0, 1, 2, 3, 4] [] [] [] (by decide)
  rw [aggregateFrom, hagg]
  rfl

/-- Witness for claim C10: aggregation of a well-formed 5-letter guess
succeeds. -/
theorem aggregation_no_panic_witness :
    (aggregateFrom [⟨List.replicate 5 ⟨'k', GuessedLetterResult.NotUsed⟩⟩]).isSome
      = true :=
  aggregation_no_panic [⟨List.replicate 5 ⟨'k', GuessedLetterResult.NotUsed⟩⟩]
    (by decide)

end WordleAid
